import Mathlib

/-!
Shallow embedding of the TCGA-ESCA mutation pipeline script
(3fetch_stage_mutation.py) and proofs of its specified properties.

Modelling choices:
* A pandas DataFrame is a list of column labels plus a list of rows; a row is
  an association list from column label to cell value, and a label absent from
  a row models a missing value (NaN).
* The filesystem under the base folder is a tree of entries; a file entry
  carries the outcome `pd.read_csv` would produce for it (a parsed table, or
  the message of the raised parse exception) — parsing of tab-separated text
  is external library behaviour, and the embedding starts from its outcome.
* `random.sample(pop, k)` is modelled by a list of draw indices supplied by
  the environment; a valid draw has k distinct in-range indices.
* `print` calls are modelled as structured messages collected in a list.
-/

/-- One row of a tabular record set: cells as (column label, value) pairs.
The first binding for a label wins; a label with no binding models NaN. -/
abbrev Row := List (String × String)

/-- Value held by column `c` in row `r` (`none` models NaN / missing). -/
def getCell (r : Row) (c : String) : Option String :=
  (r.find? (fun kv => kv.fst == c)).map (fun kv => kv.snd)

/-- Overwrite the cell of column `c` with value `v`. -/
def Row.setCell (r : Row) (c v : String) : Row :=
  (c, v) :: r.eraseP (fun kv => kv.fst == c)

/-- A pandas DataFrame: ordered column labels and the list of rows. -/
structure DF where
  cols : List String
  rows : List Row
deriving Repr, DecidableEq

/-- Column assignment `df[c] = v`: every row receives the scalar value, and
the label is appended to the column list when new. -/
def DF.setCol (df : DF) (c v : String) : DF :=
  { cols := if c ∈ df.cols then df.cols else df.cols ++ [c]
    rows := df.rows.map (fun r => Row.setCell r c v) }

/-- Embedding of `pd.concat(dfs, ignore_index=True)`: rows concatenated in
order of production, columns the union of the inputs. -/
def concatDFs (dfs : List DF) : DF :=
  { cols := (dfs.flatMap DF.cols).dedup
    rows := dfs.flatMap DF.rows }

/-- Outcome of `pd.read_csv` on one file: a parsed table, or the message of
the parse exception it raised. -/
abbrev ParseOutcome := Except String DF

/-- Structured rendering of the print calls of the script. -/
inductive Msg where
  | skipMissingColumns (path : String) (required : List String)
  | skipReadError (path : String) (err : String)
  | warnStageMissing (dir : String)
  | warnFewSamples (dir : String) (found required : Nat)
  | savedRecords (stage : String) (count : Nat)
  | noDataCollected
deriving Repr, DecidableEq

/-- The fixed coding-variant allow-list `CODING_VARIANTS` of the script. -/
def CODING_VARIANTS : List String :=
  ["Missense_Mutation", "Nonsense_Mutation",
   "Frame_Shift_Ins", "Frame_Shift_Del", "Splice_Site",
   "Translation_Start_Site", "In_Frame_Del", "In_Frame_Ins"]

/-- The `required_columns` set checked by `read_maf_file`. -/
def required_columns : List String := ["Hugo_Symbol", "Variant_Classification"]

/-- Test used by the `isin(CODING_VARIANTS)` row filter: a missing value
(NaN) is never in the set. -/
def isCoding (r : Row) : Bool :=
  match getCell r "Variant_Classification" with
  | some v => decide (v ∈ CODING_VARIANTS)
  | none => false

/-- Embedding of `read_maf_file`: on a parse exception the error is logged and
the call yields no data; with the parsed table it checks the required columns,
filters to coding variants, and yields no data when the filtered table is
empty. -/
def read_maf_file (maf_path : String) (parsed : ParseOutcome) :
    Option DF × List Msg :=
  match parsed with
  | .error e => (none, [Msg.skipReadError maf_path e])
  | .ok df =>
    if ∀ c ∈ required_columns, c ∈ df.cols then
      let filtered : DF := { df with rows := df.rows.filter isCoding }
      (if filtered.rows.isEmpty then none else some filtered, [])
    else
      (none, [Msg.skipMissingColumns maf_path required_columns])

mutual
/-- A filesystem entry: a file (with the parse outcome its content would
give) or a directory with children. -/
inductive Entry where
  | file (name : String) (parsed : ParseOutcome)
  | dir (name : String) (children : EntryList)
deriving Repr
/-- Children of a directory (a list, spelled as a mutual inductive so that
the directory walk is structurally recursive). -/
inductive EntryList where
  | nil
  | cons (e : Entry) (rest : EntryList)
deriving Repr
end

/-- View of directory children as an ordinary list. -/
def EntryList.toList : EntryList → List Entry
  | .nil => []
  | .cons e rest => e :: rest.toList

/-- Name of an entry. -/
def Entry.name : Entry → String
  | .file n _ => n
  | .dir n _ => n

/-- Immediate children of an entry (`os.listdir`; empty for a file). -/
def Entry.listing : Entry → List Entry
  | .file _ _ => []
  | .dir _ cs => cs.toList

/-- Embedding of `os.path.join` on the POSIX layout used by the script. -/
def pathJoin (a b : String) : String := a ++ "/" ++ b

/-- Test used for `f.endswith(".maf")`: suffix check on the character
sequence of the name. -/
def endsWithMaf (s : String) : Bool := ".maf".data.isSuffixOf s.data

/-- Resolve a name among a list of entries (a real directory listing has
distinct names, so first match is the match). -/
def findEntry (cs : List Entry) (n : String) : Option Entry :=
  cs.find? (fun e => e.name == n)

/-- The `.maf` files sitting directly in a directory with path `here`,
paired with their parse outcomes. -/
def mafHere (here : String) (cs : List Entry) : List (String × ParseOutcome) :=
  cs.filterMap (fun e =>
    match e with
    | .file fn pc => if endsWithMaf fn then some (pathJoin here fn, pc) else none
    | .dir _ _ => none)

mutual
/-- Embedding of the `os.walk` traversal of `find_maf_files` below a single
entry: `root` is the path of the directory holding the entry.  Walking a
plain file yields nothing; walking a directory yields its own `.maf` files
and then, in listing order, those of each subtree. -/
def walkEntry : Entry → String → List (String × ParseOutcome)
  | .file _ _, _ => []
  | .dir n cs, root =>
      mafHere (pathJoin root n) cs.toList ++ walkChildren cs (pathJoin root n)
/-- Walk of a list of sibling entries under the directory path `root`. -/
def walkChildren : EntryList → String → List (String × ParseOutcome)
  | .nil, _ => []
  | .cons e rest, root => walkEntry e root ++ walkChildren rest root
end

/-- Embedding of `find_maf_files`: the argument path is resolved against the
filesystem to `d` (with `root` the path of its parent); a nonexistent path
(`none`) makes `os.walk` yield nothing, so the result is the empty list. -/
def find_maf_files (root : String) (d : Option Entry) :
    List (String × ParseOutcome) :=
  match d with
  | none => []
  | some e => walkEntry e root

/-- The hardcoded base directory of the script. -/
def BASE_FOLDER : String := "./grade_generalised"

/-- The four ordered stage labels. -/
def stages : List String := ["StageI", "StageII", "StageIII", "StageIV"]

/-- The per-stage sample size limit. -/
def samples_per_stage : Nat := 4

/-- Names of the immediate subdirectories in a listing: the candidate case
folders of a stage. -/
def case_folders (listing : List Entry) : List String :=
  listing.filterMap (fun e =>
    match e with
    | .dir n _ => some n
    | .file _ _ => none)

/-- Embedding of `random.sample(pop, k)`: the random source is a list of draw
indices, and the sample picks the population elements at those indices. -/
def pySample (pop : List String) (idxs : List Nat) : List String :=
  idxs.filterMap (fun i => pop[i]?)

/-- A draw of indices that `random.sample` over a population of size `n` with
sample size `k` can produce: `k` distinct in-range indices. -/
def ValidDraw (idxs : List Nat) (n k : Nat) : Prop :=
  idxs.Nodup ∧ idxs.length = k ∧ ∀ i ∈ idxs, i < n

/-- Tables produced inside `get_sample_mutation_data` for one selected case:
every located file is read, files with no data are dropped, and each retained
table is stamped with the case identifier and the stage label. -/
def stampedTables (stage_dir stage : String) (listing : List Entry)
    (c : String) : List DF :=
  (find_maf_files stage_dir (findEntry listing c)).filterMap
    (fun fp => ((read_maf_file fp.fst fp.snd).fst).map
      (fun df => (df.setCol "Case" c).setCol "Stage" stage))

/-- Messages printed while reading the files of one selected case. -/
def caseReadMsgs (stage_dir : String) (listing : List Entry)
    (c : String) : List Msg :=
  (find_maf_files stage_dir (findEntry listing c)).flatMap
    (fun fp => (read_maf_file fp.fst fp.snd).snd)

/-- Embedding of `get_sample_mutation_data`: resolves the stage directory
(missing directory warns and contributes nothing), lists case folders, warns
when fewer than `samples_per_stage` exist, samples the cases with the given
draw, and collects the stamped tables of every file of every selected
case. -/
def get_sample_mutation_data (base : List Entry) (idxs : List Nat)
    (stage : String) : List DF × List Msg :=
  let stage_dir := pathJoin BASE_FOLDER stage
  match findEntry base stage with
  | none => ([], [Msg.warnStageMissing stage_dir])
  | some e =>
    let folders := case_folders e.listing
    let warn : List Msg :=
      if folders.length < samples_per_stage then
        [Msg.warnFewSamples stage_dir folders.length samples_per_stage]
      else []
    let selected := pySample folders idxs
    (selected.flatMap (fun c => stampedTables stage_dir stage e.listing c),
     warn ++ selected.flatMap (fun c => caseReadMsgs stage_dir e.listing c))

/-- Grouping of a table by its Stage column as `df.groupby` produces it:
sorted distinct non-null stage values, each with the rows holding it
(pandas groupby drops rows whose key is NaN). -/
def groupbyStage (df : DF) : List (String × List Row) :=
  (List.insertionSort (fun a b => a ≤ b)
      (df.rows.filterMap (fun r => getCell r "Stage")).dedup).map
    (fun s => (s, df.rows.filter (fun r => decide (getCell r "Stage" = some s))))

/-- Embedding of `save_to_excel`: one sheet per stage group, named by the
stage label, holding exactly that group (written with `index=False`, so a
sheet holds nothing but the table itself), plus the per-sheet messages. -/
def save_to_excel (df : DF) : List (String × DF) × List Msg :=
  let gs := groupbyStage df
  (gs.map (fun g => (g.fst, DF.mk df.cols g.snd)),
   gs.map (fun g => Msg.savedRecords g.fst g.snd.length))

/-- Embedding of `visualize_mutation_cnv`: a missing required column raises
`ValueError` (the error case); otherwise the chart data is one point per
stage group, at height the size of the group. -/
def visualize_mutation_cnv (df : DF) :
    Except String (List (String × Nat)) :=
  if "Variant_Classification" ∈ df.cols ∧ "Stage" ∈ df.cols then
    .ok ((groupbyStage df).map (fun g => (g.fst, g.snd.length)))
  else
    .error "The dataset must have Variant_Classification and Stage columns."

/-- Observable result of one run of `main`. -/
structure MainResult where
  combined : Option DF
  sheets : List (String × DF)
  chart : Option (Except String (List (String × Nat)))
  msgs : List Msg

/-- The list `all_mutation_data` built by the stage loop of `main`; `base` is
the listing of the base folder and `oracle` gives each stage call its random
draw. -/
def collect_all (base : List Entry) (oracle : String → List Nat) : List DF :=
  stages.flatMap (fun s => (get_sample_mutation_data base (oracle s) s).fst)

/-- Messages printed by the stage loop of `main`. -/
def collect_msgs (base : List Entry) (oracle : String → List Nat) : List Msg :=
  stages.flatMap (fun s => (get_sample_mutation_data base (oracle s) s).snd)

/-- Embedding of `main` (named main_run because Lean reserves the name main): when the collected list is empty nothing is written
and the diagnostic is printed; otherwise the tables are concatenated, the
spreadsheet is written and the chart is computed. -/
def main_run (base : List Entry) (oracle : String → List Nat) : MainResult :=
  let all := collect_all base oracle
  if all.isEmpty then
    { combined := none, sheets := [], chart := none,
      msgs := collect_msgs base oracle ++ [Msg.noDataCollected] }
  else
    let combined := concatDFs all
    let saved := save_to_excel combined
    { combined := some combined, sheets := saved.fst,
      chart := some (visualize_mutation_cnv combined),
      msgs := collect_msgs base oracle ++ saved.snd }

/-- Filtered row count a file contributes: the size of the table
`read_maf_file` returns for it, and zero when it returns no data. -/
def fileReadCount (fp : String × ParseOutcome) : Nat :=
  match (read_maf_file fp.fst fp.snd).fst with
  | none => 0
  | some df => df.rows.length

/-- Sum of the filtered row counts over every file of one selected case. -/
def caseReadCount (stage_dir : String) (listing : List Entry)
    (c : String) : Nat :=
  ((find_maf_files stage_dir (findEntry listing c)).map fileReadCount).sum

/-- Sum of the filtered row counts over every file of every selected case of
one stage. -/
def stageReadCount (base : List Entry) (idxs : List Nat) (stage : String) :
    Nat :=
  match findEntry base stage with
  | none => 0
  | some e =>
      ((pySample (case_folders e.listing) idxs).map
        (caseReadCount (pathJoin BASE_FOLDER stage) e.listing)).sum

/-- Sum of the filtered row counts over every file of every selected case in
every stage of a run. -/
def totalReadCount (base : List Entry) (oracle : String → List Nat) : Nat :=
  (stages.map (fun s => stageReadCount base (oracle s) s)).sum

/-- Characterisation of the paths `find_maf_files` must return: `p` is, at
some depth below entry `e` (whose parent directory has path `root`), the path
of a file whose name ends in `.maf`. -/
inductive IsMafPath : String → Entry → String → Prop where
  | here : ∀ (root n fn : String) (cs : EntryList) (pc : ParseOutcome),
      Entry.file fn pc ∈ cs.toList → endsWithMaf fn = true →
      IsMafPath root (.dir n cs) (pathJoin (pathJoin root n) fn)
  | deeper : ∀ (root n p : String) (cs : EntryList) (e : Entry),
      e ∈ cs.toList → IsMafPath (pathJoin root n) e p →
      IsMafPath root (.dir n cs) p

/-! Basic lemmas about the cell and table operations. -/

theorem getCell_setCell_same (r : Row) (c v : String) :
    getCell (Row.setCell r c v) c = some v := by
  simp [getCell, Row.setCell, List.find?]

theorem find?_eraseP_key (c c' : String) (h : c' ≠ c) : ∀ r : Row,
    (r.eraseP (fun kv => kv.fst == c)).find? (fun kv => kv.fst == c') =
      r.find? (fun kv => kv.fst == c')
  | [] => rfl
  | kv :: rest => by
    by_cases hc : kv.fst = c
    · have hne : ¬ (kv.fst == c') = true := by
        rw [beq_iff_eq, hc]
        exact fun hx => h hx.symm
      rw [List.eraseP_cons, show (kv.fst == c) = true from beq_iff_eq.mpr hc,
        cond_true, List.find?_cons_of_neg rest hne]
    · rw [List.eraseP_cons,
        show (kv.fst == c) = false from beq_eq_false_iff_ne.mpr hc, cond_false]
      by_cases hq : (kv.fst == c') = true
      · simp only [List.find?_cons, hq]
      · rw [Bool.not_eq_true] at hq
        simp only [List.find?_cons, hq]
        exact find?_eraseP_key c c' h rest

theorem getCell_setCell_ne (r : Row) (c c' v : String) (h : c' ≠ c) :
    getCell (Row.setCell r c v) c' = getCell r c' := by
  have hq : ¬ ((c, v).fst == c') = true := by
    rw [beq_iff_eq]
    exact fun hx => h hx.symm
  rw [Bool.not_eq_true] at hq
  unfold getCell Row.setCell
  simp only [List.find?_cons, hq]
  rw [find?_eraseP_key c c' h r]

theorem setCol_rows (df : DF) (c v : String) :
    (df.setCol c v).rows = df.rows.map (fun r => Row.setCell r c v) := rfl

theorem length_setCol (df : DF) (c v : String) :
    (df.setCol c v).rows.length = df.rows.length := by
  simp [DF.setCol]

theorem concatDFs_rows (dfs : List DF) :
    (concatDFs dfs).rows = dfs.flatMap DF.rows := rfl

theorem isCoding_iff (r : Row) : isCoding r = true ↔
    ∃ v, getCell r "Variant_Classification" = some v ∧ v ∈ CODING_VARIANTS := by
  unfold isCoding
  cases h : getCell r "Variant_Classification" <;> simp [h]

/-! Lemmas unfolding the branches of read_maf_file. -/

theorem read_maf_file_ok_cols (p : String) (df : DF)
    (hcols : ∀ c ∈ required_columns, c ∈ df.cols) :
    read_maf_file p (.ok df) =
      (if (df.rows.filter isCoding).isEmpty then none
       else some { df with rows := df.rows.filter isCoding }, []) := by
  simp only [read_maf_file]
  rw [if_pos hcols]

theorem read_maf_file_some (p : String) (pc : ParseOutcome) (out : DF)
    (h : (read_maf_file p pc).fst = some out) :
    ∃ df : DF, pc = .ok df ∧ out = { df with rows := df.rows.filter isCoding } ∧
      out.rows ≠ [] := by
  match pc with
  | .error e => simp [read_maf_file] at h
  | .ok df =>
    refine ⟨df, rfl, ?_⟩
    by_cases hcols : ∀ c ∈ required_columns, c ∈ df.cols
    · rw [read_maf_file_ok_cols p df hcols] at h
      by_cases hemp : (df.rows.filter isCoding).isEmpty = true
      · rw [if_pos hemp] at h
        exact absurd h (by simp)
      · rw [if_neg hemp] at h
        have hout : out = { df with rows := df.rows.filter isCoding } :=
          (Option.some_inj.mp h).symm
        refine ⟨hout, ?_⟩
        rw [hout]
        simpa [List.isEmpty_iff] using hemp
    · simp only [read_maf_file] at h
      rw [if_neg hcols] at h
      exact absurd h (by simp)

/-- C8: read_maf_file is total at its public interface; in the embedding a
parse exception is the error outcome of pd.read_csv, and on it the call
returns no data together with the logged skip message, so no exception
reaches the caller. -/
theorem read_maf_file_catches_parse_errors (p e : String) :
    read_maf_file p (.error e) = (none, [Msg.skipReadError p e]) := rfl

/-- C7: on a parsed table missing the Hugo_Symbol column or the
Variant_Classification column, read_maf_file returns no data and prints the
skip message carrying the required column set, which names both columns and
hence every missing one. -/
theorem read_maf_file_missing_columns (p : String) (df : DF)
    (h : "Hugo_Symbol" ∉ df.cols ∨ "Variant_Classification" ∉ df.cols) :
    read_maf_file p (.ok df) =
      (none, [Msg.skipMissingColumns p required_columns]) ∧
    "Hugo_Symbol" ∈ required_columns ∧
    "Variant_Classification" ∈ required_columns := by
  have hnot : ¬ ∀ c ∈ required_columns, c ∈ df.cols := by
    intro hall
    rcases h with h | h
    · exact h (hall _ (by simp [required_columns]))
    · exact h (hall _ (by simp [required_columns]))
  refine ⟨?_, by simp [required_columns], by simp [required_columns]⟩
  simp [read_maf_file, hnot]

/-- Witness for C7 at a concrete table lacking both required columns. -/
theorem read_maf_file_missing_columns_witness :
    read_maf_file "a.maf" (.ok ⟨["Tumor_Sample_Barcode"], [[("Tumor_Sample_Barcode", "x")]]⟩) =
      (none, [Msg.skipMissingColumns "a.maf" required_columns]) ∧
    "Hugo_Symbol" ∈ required_columns ∧
    "Variant_Classification" ∈ required_columns :=
  read_maf_file_missing_columns "a.maf"
    ⟨["Tumor_Sample_Barcode"], [[("Tumor_Sample_Barcode", "x")]]⟩
    (Or.inl (by decide))

/-- C6: a parsed table with both required columns whose classification values
all lie outside the coding allow-list filters to the empty table, so
read_maf_file returns no data. -/
theorem read_maf_file_noncoding (p : String) (df : DF)
    (hcols : ∀ c ∈ required_columns, c ∈ df.cols)
    (hnc : ∀ r ∈ df.rows, ∀ v,
      getCell r "Variant_Classification" = some v → v ∉ CODING_VARIANTS) :
    (read_maf_file p (.ok df)).fst = none := by
  have hfil : df.rows.filter isCoding = [] := by
    rw [List.filter_eq_nil_iff]
    intro r hr hcod
    rcases (isCoding_iff r).mp hcod with ⟨v, hv, hmem⟩
    exact hnc r hr v hv hmem
  rw [read_maf_file_ok_cols p df hcols]
  simp [hfil]

/-- Witness for C6 at a concrete table holding only a Silent variant. -/
theorem read_maf_file_noncoding_witness :
    (read_maf_file "b.maf" (.ok ⟨["Hugo_Symbol", "Variant_Classification"],
      [[("Hugo_Symbol", "TP53"), ("Variant_Classification", "Silent")],
       [("Hugo_Symbol", "KRAS"), ("Variant_Classification", "IGR")]]⟩)).fst = none :=
  read_maf_file_noncoding "b.maf"
    ⟨["Hugo_Symbol", "Variant_Classification"],
      [[("Hugo_Symbol", "TP53"), ("Variant_Classification", "Silent")],
       [("Hugo_Symbol", "KRAS"), ("Variant_Classification", "IGR")]]⟩
    (by decide)
    (by
      intro r hr v hv hmem
      simp only [List.mem_cons, List.not_mem_nil, or_false] at hr
      rcases hr with rfl | rfl
      · have h0 : getCell [("Hugo_Symbol", "TP53"),
            ("Variant_Classification", "Silent")] "Variant_Classification" =
            some "Silent" := rfl
        rw [h0] at hv
        injection hv with hv2
        subst hv2
        exact absurd hmem (by decide)
      · have h0 : getCell [("Hugo_Symbol", "KRAS"),
            ("Variant_Classification", "IGR")] "Variant_Classification" =
            some "IGR" := rfl
        rw [h0] at hv
        injection hv with hv2
        subst hv2
        exact absurd hmem (by decide))

/-! Concrete fixtures used by the witnesses. -/

/-- A small parsed MAF table: one coding and one non-coding row. -/
def sampleMaf : DF :=
  ⟨["Hugo_Symbol", "Variant_Classification"],
   [[("Hugo_Symbol", "TP53"), ("Variant_Classification", "Missense_Mutation")],
    [("Hugo_Symbol", "EGFR"), ("Variant_Classification", "Silent")]]⟩

/-- Case directory holding one MAF file. -/
def sampleCaseEntry : Entry :=
  .dir "caseA" (.cons (.file "m.maf" (.ok sampleMaf)) .nil)

/-- Stage directory holding one case. -/
def sampleStageEntry : Entry := .dir "StageI" (.cons sampleCaseEntry .nil)

/-- Base-folder listing with one stage directory holding one case with one
MAF file. -/
def sampleBase : List Entry := [sampleStageEntry]

/-- Draw oracle always picking the first candidate case. -/
def sampleOracle : String → List Nat := fun _ => [0]

/-- The combined table the sample run produces. -/
def sampleCombined : DF :=
  ⟨["Hugo_Symbol", "Variant_Classification", "Case", "Stage"],
   [[("Stage", "StageI"), ("Case", "caseA"), ("Hugo_Symbol", "TP53"),
     ("Variant_Classification", "Missense_Mutation")]]⟩

/-! Unfolding lemmas for main_run and sums over the produced tables. -/

theorem main_run_combined (base : List Entry) (oracle : String → List Nat) :
    (main_run base oracle).combined =
      if collect_all base oracle = [] then none
      else some (concatDFs (collect_all base oracle)) := by
  rw [main_run]
  by_cases h : collect_all base oracle = []
  · simp [h]
  · simp [h, List.isEmpty_iff]

theorem main_run_sheets (base : List Entry) (oracle : String → List Nat) :
    (main_run base oracle).sheets =
      if collect_all base oracle = [] then []
      else (save_to_excel (concatDFs (collect_all base oracle))).fst := by
  rw [main_run]
  by_cases h : collect_all base oracle = []
  · simp [h]
  · simp [h, List.isEmpty_iff]

theorem main_run_msgs_empty (base : List Entry) (oracle : String → List Nat)
    (h : collect_all base oracle = []) :
    (main_run base oracle).msgs = collect_msgs base oracle ++ [Msg.noDataCollected] := by
  rw [main_run]
  simp [h]

theorem length_concatDFs (dfs : List DF) :
    (concatDFs dfs).rows.length = (dfs.map (fun df => df.rows.length)).sum := by
  simp [concatDFs, List.length_flatMap, Function.comp_def]

theorem stamped_length (df0 : DF) (c st : String) :
    ((df0.setCol "Case" c).setCol "Stage" st).rows.length = df0.rows.length := by
  rw [length_setCol, length_setCol]

theorem stamped_sum (sd st : String) (listing : List Entry) (c : String) :
    ((stampedTables sd st listing c).map (fun df => df.rows.length)).sum =
      caseReadCount sd listing c := by
  unfold stampedTables caseReadCount
  induction find_maf_files sd (findEntry listing c) with
  | nil => rfl
  | cons fp rest ih =>
    cases ho : (read_maf_file fp.fst fp.snd).fst with
    | none => simp [List.filterMap_cons, ho, fileReadCount, ih]
    | some df0 =>
      simp [List.filterMap_cons, ho, fileReadCount, stamped_length, ih]

theorem get_sample_sum (base : List Entry) (idxs : List Nat) (s : String) :
    (((get_sample_mutation_data base idxs s).fst).map
        (fun df => df.rows.length)).sum = stageReadCount base idxs s := by
  unfold get_sample_mutation_data stageReadCount
  cases h : findEntry base s with
  | none => rfl
  | some e =>
    simp only []
    rw [List.map_flatMap, List.flatMap_def, List.sum_flatten, List.map_map]
    congr 1
    apply List.map_congr_left
    intro c _
    simp only [Function.comp_def]
    exact stamped_sum (pathJoin BASE_FOLDER s) s e.listing c

/-- C1: the row count of the combined table of a run equals the sum of the
filtered row counts read_maf_file returns over every file of every selected
case in every stage (a run with no data has combined table absent and total
count zero): pd.concat neither drops nor duplicates rows. -/
theorem main_combined_row_count (base : List Entry)
    (oracle : String → List Nat) :
    ((main_run base oracle).combined.map (fun df => df.rows.length)).getD 0 =
      totalReadCount base oracle := by
  rw [main_run_combined]
  by_cases h : collect_all base oracle = []
  · rw [if_pos h]
    have h0 : ∀ s ∈ stages, stageReadCount base (oracle s) s = 0 := by
      intro s hs
      rw [← get_sample_sum]
      have hnil : (get_sample_mutation_data base (oracle s) s).fst = [] :=
        (List.flatMap_eq_nil_iff.mp h) s hs
      simp [hnil]
    have : totalReadCount base oracle = 0 := by
      unfold totalReadCount
      apply List.sum_eq_zero
      intro x hx
      obtain ⟨s, hs, rfl⟩ := List.mem_map.mp hx
      exact h0 s hs
    simp [this]
  · rw [if_neg h]
    simp only [Option.map, Option.getD]
    rw [length_concatDFs]
    unfold collect_all totalReadCount
    rw [List.map_flatMap, List.flatMap_def, List.sum_flatten, List.map_map]
    congr 1
    apply List.map_congr_left
    intro s _
    simp only [Function.comp_def]
    exact get_sample_sum base (oracle s) s

/-! Membership structure of the collected tables. -/

theorem mem_stampedTables (sd st : String) (listing : List Entry) (c : String)
    (df : DF) (h : df ∈ stampedTables sd st listing c) :
    ∃ fp ∈ find_maf_files sd (findEntry listing c), ∃ df0,
      (read_maf_file fp.fst fp.snd).fst = some df0 ∧
      df = (df0.setCol "Case" c).setCol "Stage" st := by
  simp only [stampedTables, List.mem_filterMap] at h
  obtain ⟨fp, hfp, hmap⟩ := h
  cases ho : (read_maf_file fp.fst fp.snd).fst with
  | none => rw [ho] at hmap; exact absurd hmap (by simp)
  | some df0 =>
    rw [ho] at hmap
    simp only [Option.map] at hmap
    exact ⟨fp, hfp, df0, ho, (Option.some_inj.mp hmap).symm⟩

theorem mem_get_sample (base : List Entry) (idxs : List Nat) (s : String)
    (df : DF) (h : df ∈ (get_sample_mutation_data base idxs s).fst) :
    ∃ e, findEntry base s = some e ∧
      ∃ c ∈ pySample (case_folders e.listing) idxs,
        df ∈ stampedTables (pathJoin BASE_FOLDER s) s e.listing c := by
  unfold get_sample_mutation_data at h
  cases he : findEntry base s with
  | none => rw [he] at h; exact absurd h (by simp)
  | some e =>
    rw [he] at h
    simp only [List.mem_flatMap] at h
    obtain ⟨c, hc, hdf⟩ := h
    exact ⟨e, rfl, c, hc, hdf⟩

theorem mem_collect_all (base : List Entry) (oracle : String → List Nat)
    (df : DF) (h : df ∈ collect_all base oracle) :
    ∃ st c df0, (∃ p pc, (read_maf_file p pc).fst = some df0) ∧
      df = (df0.setCol "Case" c).setCol "Stage" st := by
  unfold collect_all at h
  obtain ⟨s, _, hdf⟩ := List.mem_flatMap.mp h
  obtain ⟨e, _, c, _, hst⟩ := mem_get_sample base (oracle s) s df hdf
  obtain ⟨fp, _, df0, hread, heq⟩ :=
    mem_stampedTables (pathJoin BASE_FOLDER s) s e.listing c df hst
  exact ⟨s, c, df0, ⟨fp.fst, fp.snd, hread⟩, heq⟩

theorem collect_all_rows_ne_nil (base : List Entry)
    (oracle : String → List Nat) (df : DF) (h : df ∈ collect_all base oracle) :
    df.rows ≠ [] := by
  obtain ⟨st, c, df0, ⟨p, pc, hread⟩, rfl⟩ := mem_collect_all base oracle df h
  obtain ⟨dfsrc, _, _, hne⟩ := read_maf_file_some p pc df0 hread
  intro hnil
  apply hne
  have hlen : df0.rows.length = 0 := by
    have := stamped_length df0 c st
    rw [hnil] at this
    simpa using this.symm
  exact List.length_eq_zero.mp hlen

/-- C9: read_maf_file never returns an empty table, and therefore the
combined table of a run is produced and non-empty exactly when the collected
list of per-file tables is non-empty, making the emptiness test of main on
the list equivalent to testing the table. -/
theorem read_maf_file_never_empty :
    (∀ p pc df, (read_maf_file p pc).fst = some df → df.rows ≠ []) ∧
    (∀ base oracle, collect_all base oracle ≠ [] ↔
      ∃ df, (main_run base oracle).combined = some df ∧ df.rows ≠ []) := by
  constructor
  · intro p pc df h
    obtain ⟨_, _, _, hne⟩ := read_maf_file_some p pc df h
    exact hne
  · intro base oracle
    constructor
    · intro hne
      refine ⟨concatDFs (collect_all base oracle), ?_, ?_⟩
      · rw [main_run_combined, if_neg hne]
      · cases hall : collect_all base oracle with
        | nil => exact absurd hall hne
        | cons d rest =>
          have hd : d.rows ≠ [] :=
            collect_all_rows_ne_nil base oracle d (by rw [hall]; simp)
          rw [concatDFs_rows]
          simp only [List.flatMap_cons]
          intro hcontra
          exact hd (List.append_eq_nil.mp hcontra).1
    · rintro ⟨df, hdf, _⟩ hnil
      rw [main_run_combined, if_pos hnil] at hdf
      exact Option.noConfusion hdf

/-- Witness for C9: the sample run has a non-empty collected list and a
non-empty combined table, and its one read table is non-empty. -/
theorem read_maf_file_never_empty_witness :
    ((read_maf_file "m.maf" (.ok sampleMaf)).fst =
        some ⟨["Hugo_Symbol", "Variant_Classification"],
          [[("Hugo_Symbol", "TP53"),
            ("Variant_Classification", "Missense_Mutation")]]⟩ →
      (⟨["Hugo_Symbol", "Variant_Classification"],
          [[("Hugo_Symbol", "TP53"),
            ("Variant_Classification", "Missense_Mutation")]]⟩ : DF).rows ≠ []) ∧
    (collect_all sampleBase sampleOracle ≠ [] ↔
      ∃ df, (main_run sampleBase sampleOracle).combined = some df ∧
        df.rows ≠ []) :=
  ⟨read_maf_file_never_empty.1 "m.maf" (.ok sampleMaf) _,
   read_maf_file_never_empty.2 sampleBase sampleOracle⟩

/-! Row invariant of the combined table. -/

theorem isCoding_congr (r r2 : Row)
    (h : getCell r "Variant_Classification" =
      getCell r2 "Variant_Classification") :
    isCoding r = isCoding r2 := by
  unfold isCoding
  rw [h]

/-- C2: every row of the combined table has a non-null Case cell, a non-null
Stage cell, and a Variant_Classification value inside the coding allow-list
(isCoding): the stamping in get_sample_mutation_data establishes the
invariant and concatenation in main preserves it. -/
theorem combined_row_invariant (base : List Entry) (oracle : String → List Nat)
    (df : DF) (r : Row) (hc : (main_run base oracle).combined = some df)
    (hr : r ∈ df.rows) :
    getCell r "Case" ≠ none ∧ getCell r "Stage" ≠ none ∧ isCoding r = true := by
  rw [main_run_combined] at hc
  by_cases h : collect_all base oracle = []
  · rw [if_pos h] at hc
    exact Option.noConfusion hc
  · rw [if_neg h] at hc
    obtain rfl : concatDFs (collect_all base oracle) = df :=
      Option.some_inj.mp hc
    rw [concatDFs_rows] at hr
    obtain ⟨df2, hdf2, hrdf⟩ := List.mem_flatMap.mp hr
    obtain ⟨st, c, df0, ⟨p, pc, hread⟩, rfl⟩ :=
      mem_collect_all base oracle df2 hdf2
    rw [setCol_rows, setCol_rows] at hrdf
    obtain ⟨r1, hr1, rfl⟩ := List.mem_map.mp hrdf
    obtain ⟨r0, hr0, rfl⟩ := List.mem_map.mp hr1
    have hcase : ("Case" : String) ≠ "Stage" := by decide
    have hvcst : ("Variant_Classification" : String) ≠ "Stage" := by decide
    have hvcca : ("Variant_Classification" : String) ≠ "Case" := by decide
    refine ⟨?_, ?_, ?_⟩
    · rw [getCell_setCell_ne _ _ _ _ hcase, getCell_setCell_same]
      exact Option.noConfusion
    · rw [getCell_setCell_same]
      exact Option.noConfusion
    · have hchain : getCell (Row.setCell (Row.setCell r0 "Case" c) "Stage" st)
          "Variant_Classification" = getCell r0 "Variant_Classification" := by
        rw [getCell_setCell_ne _ _ _ _ hvcst, getCell_setCell_ne _ _ _ _ hvcca]
      rw [isCoding_congr _ _ hchain]
      obtain ⟨dfsrc, _, hrows, _⟩ := read_maf_file_some p pc df0 hread
      rw [hrows] at hr0
      exact (List.mem_filter.mp hr0).2

/-- Witness for C2 at the single row of the sample run. -/
theorem combined_row_invariant_witness :
    getCell [("Stage", "StageI"), ("Case", "caseA"), ("Hugo_Symbol", "TP53"),
      ("Variant_Classification", "Missense_Mutation")] "Case" ≠ none ∧
    getCell [("Stage", "StageI"), ("Case", "caseA"), ("Hugo_Symbol", "TP53"),
      ("Variant_Classification", "Missense_Mutation")] "Stage" ≠ none ∧
    isCoding [("Stage", "StageI"), ("Case", "caseA"), ("Hugo_Symbol", "TP53"),
      ("Variant_Classification", "Missense_Mutation")] = true :=
  combined_row_invariant sampleBase sampleOracle sampleCombined _
    (by decide) (by decide)

/-! Properties of the sampling step. -/

theorem pySample_length (pop : List String) (idxs : List Nat)
    (h : ∀ i ∈ idxs, i < pop.length) :
    (pySample pop idxs).length = idxs.length := by
  unfold pySample
  induction idxs with
  | nil => rfl
  | cons i rest ih =>
    have hi : i < pop.length := h i (by simp)
    rw [List.filterMap_cons, List.getElem?_eq_getElem hi]
    simp only [List.length_cons]
    rw [ih (fun j hj => h j (by simp [hj]))]

theorem pySample_nodup (pop : List String) (idxs : List Nat)
    (hpop : pop.Nodup) (hidx : idxs.Nodup)
    (h : ∀ i ∈ idxs, i < pop.length) :
    (pySample pop idxs).Nodup := by
  unfold pySample
  induction idxs with
  | nil => simp
  | cons i rest ih =>
    have hi : i < pop.length := h i (by simp)
    rw [List.filterMap_cons, List.getElem?_eq_getElem hi]
    have hnotin : i ∉ rest := (List.nodup_cons.mp hidx).1
    have hrest : rest.Nodup := (List.nodup_cons.mp hidx).2
    refine List.nodup_cons.mpr
      ⟨?_, ih hrest (fun j hj => h j (by simp [hj]))⟩
    intro hmem
    obtain ⟨j, hj, hjeq⟩ := List.mem_filterMap.mp hmem
    have hjlt : j < pop.length := h j (by simp [hj])
    rw [List.getElem?_eq_getElem hjlt] at hjeq
    have heq : pop[i] = pop[j] := (Option.some_inj.mp hjeq).symm
    exact hnotin ((List.Nodup.getElem_inj_iff hpop).mp heq ▸ hj)

theorem pySample_subset (pop : List String) (idxs : List Nat) :
    ∀ x ∈ pySample pop idxs, x ∈ pop := by
  intro x hx
  obtain ⟨i, _, hi⟩ := List.mem_filterMap.mp hx
  exact List.getElem?_mem hi

theorem case_folders_sublist (listing : List Entry) :
    (case_folders listing).Sublist (listing.map Entry.name) := by
  induction listing with
  | nil => simp [case_folders]
  | cons e rest ih =>
    cases e with
    | file n pc => simpa [case_folders, Entry.name] using ih.cons _
    | dir n cs => simpa [case_folders, Entry.name] using List.Sublist.cons₂ n ih

theorem read_maf_file_msgs_shape (p : String) (pc : ParseOutcome) (m : Msg)
    (h : m ∈ (read_maf_file p pc).snd) :
    (∃ e, m = Msg.skipReadError p e) ∨
      m = Msg.skipMissingColumns p required_columns := by
  match pc with
  | .error e =>
    exact Or.inl ⟨e, by simpa [read_maf_file] using h⟩
  | .ok df =>
    by_cases hcols : ∀ c ∈ required_columns, c ∈ df.cols
    · rw [read_maf_file_ok_cols p df hcols] at h
      simp at h
    · refine Or.inr ?_
      simp only [read_maf_file] at h
      rw [if_neg hcols] at h
      simpa using h

theorem warnFew_not_in_caseReadMsgs (sd : String) (listing : List Entry)
    (c d : String) (f q : Nat) :
    Msg.warnFewSamples d f q ∉ caseReadMsgs sd listing c := by
  intro h
  unfold caseReadMsgs at h
  obtain ⟨fp, _, hm⟩ := List.mem_flatMap.mp h
  rcases read_maf_file_msgs_shape fp.fst fp.snd _ hm with ⟨e, he⟩ | he <;>
    exact Msg.noConfusion he

/-- C3: for a stage directory with N immediate case subdirectories and any
draw random.sample can make, get_sample_mutation_data selects exactly
min(N, samples_per_stage) distinct existing cases, and the few-samples
warning is printed exactly when N is below the configured sample size. -/
theorem sampler_spec (base : List Entry) (idxs : List Nat) (stage : String)
    (e : Entry) (he : findEntry base stage = some e)
    (hnames : (e.listing.map Entry.name).Nodup)
    (hdraw : ValidDraw idxs (case_folders e.listing).length
      (min samples_per_stage (case_folders e.listing).length)) :
    (pySample (case_folders e.listing) idxs).length =
      min (case_folders e.listing).length samples_per_stage ∧
    (pySample (case_folders e.listing) idxs).Nodup ∧
    (∀ c ∈ pySample (case_folders e.listing) idxs,
      c ∈ case_folders e.listing) ∧
    (Msg.warnFewSamples (pathJoin BASE_FOLDER stage)
        (case_folders e.listing).length samples_per_stage ∈
        (get_sample_mutation_data base idxs stage).snd ↔
      (case_folders e.listing).length < samples_per_stage) := by
  obtain ⟨hnd, hlen, hbound⟩ := hdraw
  refine ⟨?_, ?_, pySample_subset _ _, ?_⟩
  · rw [pySample_length _ _ hbound, hlen, Nat.min_comm]
  · exact pySample_nodup _ _
      ((case_folders_sublist e.listing).nodup hnames) hnd hbound
  · unfold get_sample_mutation_data
    rw [he]
    simp only [List.mem_append, List.mem_flatMap]
    constructor
    · rintro (hw | ⟨c, _, hm⟩)
      · by_cases hlt : (case_folders e.listing).length < samples_per_stage
        · exact hlt
        · rw [if_neg hlt] at hw
          exact absurd hw (List.not_mem_nil _)
      · exact absurd hm (warnFew_not_in_caseReadMsgs _ _ _ _ _ _)
    · intro hlt
      rw [if_pos hlt]
      exact Or.inl (List.mem_singleton.mpr rfl)

/-- Witness for C3 on the sample stage directory with one case and the draw
picking index zero. -/
theorem sampler_spec_witness :
    (pySample (case_folders sampleStageEntry.listing) [0]).length =
      min (case_folders sampleStageEntry.listing).length samples_per_stage ∧
    (pySample (case_folders sampleStageEntry.listing) [0]).Nodup ∧
    (∀ c ∈ pySample (case_folders sampleStageEntry.listing) [0],
      c ∈ case_folders sampleStageEntry.listing) ∧
    (Msg.warnFewSamples (pathJoin BASE_FOLDER "StageI")
        (case_folders sampleStageEntry.listing).length samples_per_stage ∈
        (get_sample_mutation_data sampleBase [0] "StageI").snd ↔
      (case_folders sampleStageEntry.listing).length < samples_per_stage) :=
  sampler_spec sampleBase [0] "StageI" sampleStageEntry rfl
    (by decide) ⟨by decide, by decide, by decide⟩

/-! Properties of the stage grouping shared by the exporter and the
visualizer. -/

theorem groupbyStage_keys (df : DF) :
    (groupbyStage df).map Prod.fst =
      List.insertionSort (fun a b => a ≤ b)
        (df.rows.filterMap (fun r => getCell r "Stage")).dedup := by
  unfold groupbyStage
  rw [List.map_map]
  simp [Function.comp_def]

theorem groupbyStage_key_nodup (df : DF) :
    ((groupbyStage df).map Prod.fst).Nodup := by
  rw [groupbyStage_keys]
  exact (List.perm_insertionSort _ _).symm.nodup (List.nodup_dedup _)

theorem groupbyStage_mem_keys (df : DF) (s : String) :
    s ∈ (groupbyStage df).map Prod.fst ↔
      ∃ r ∈ df.rows, getCell r "Stage" = some s := by
  rw [groupbyStage_keys, (List.perm_insertionSort _ _).mem_iff,
    List.mem_dedup, List.mem_filterMap]

theorem groupbyStage_groups (df : DF) (g : String × List Row)
    (h : g ∈ groupbyStage df) :
    g.snd = df.rows.filter
      (fun r => decide (getCell r "Stage" = some g.fst)) := by
  unfold groupbyStage at h
  obtain ⟨s, _, rfl⟩ := List.mem_map.mp h
  rfl

/-- C4: visualize_mutation_cnv raises ValueError exactly when the table lacks
the Variant_Classification or the Stage column; with both present it
succeeds and the chart has one point per distinct (non-null) Stage value
whose height is the row count of that stage. -/
theorem visualize_spec (df : DF) :
    ((∃ err, visualize_mutation_cnv df = .error err) ↔
      ("Variant_Classification" ∉ df.cols ∨ "Stage" ∉ df.cols)) ∧
    ("Variant_Classification" ∈ df.cols → "Stage" ∈ df.cols →
      ∃ pts, visualize_mutation_cnv df = .ok pts ∧
        (pts.map Prod.fst).Nodup ∧
        (∀ s, s ∈ pts.map Prod.fst ↔
          ∃ r ∈ df.rows, getCell r "Stage" = some s) ∧
        (∀ pr ∈ pts, pr.snd = (df.rows.filter
          (fun r => decide (getCell r "Stage" = some pr.fst))).length)) := by
  constructor
  · constructor
    · rintro ⟨err, herr⟩
      by_contra hcon
      push_neg at hcon
      unfold visualize_mutation_cnv at herr
      rw [if_pos ⟨hcon.1, hcon.2⟩] at herr
      exact Except.noConfusion herr
    · intro hmiss
      refine ⟨"The dataset must have Variant_Classification and Stage columns.", ?_⟩
      unfold visualize_mutation_cnv
      rw [if_neg (fun hboth => ?_)]
      rcases hmiss with hm | hm
      · exact hm hboth.1
      · exact hm hboth.2
  · intro h1 h2
    refine ⟨(groupbyStage df).map (fun g => (g.fst, g.snd.length)),
      ?_, ?_, ?_, ?_⟩
    · unfold visualize_mutation_cnv
      rw [if_pos ⟨h1, h2⟩]
    · rw [List.map_map]
      have heq : (Prod.fst ∘ fun g : String × List Row =>
          (g.fst, g.snd.length)) = Prod.fst := rfl
      rw [heq]
      exact groupbyStage_key_nodup df
    · intro s
      rw [List.map_map]
      have heq : (Prod.fst ∘ fun g : String × List Row =>
          (g.fst, g.snd.length)) = Prod.fst := rfl
      rw [heq]
      exact groupbyStage_mem_keys df s
    · intro pr hpr
      obtain ⟨g, hg, rfl⟩ := List.mem_map.mp hpr
      rw [groupbyStage_groups df g hg]

/-- Witness for C4: the sample combined table has both columns and yields
its chart points. -/
theorem visualize_spec_witness :
    ∃ pts, visualize_mutation_cnv sampleCombined = .ok pts ∧
      (pts.map Prod.fst).Nodup ∧
      (∀ s, s ∈ pts.map Prod.fst ↔
        ∃ r ∈ sampleCombined.rows, getCell r "Stage" = some s) ∧
      (∀ pr ∈ pts, pr.snd = (sampleCombined.rows.filter
        (fun r => decide (getCell r "Stage" = some pr.fst))).length) :=
  (visualize_spec sampleCombined).2 (by decide) (by decide)

/-! The export step of main. -/

theorem combined_rows_ne_nil (base : List Entry) (oracle : String → List Nat)
    (h : collect_all base oracle ≠ []) :
    (concatDFs (collect_all base oracle)).rows ≠ [] := by
  cases hall : collect_all base oracle with
  | nil => exact absurd hall h
  | cons d rest =>
    have hd : d.rows ≠ [] :=
      collect_all_rows_ne_nil base oracle d (by rw [hall]; simp)
    rw [concatDFs_rows]
    simp only [List.flatMap_cons]
    intro hcontra
    exact hd (List.append_eq_nil.mp hcontra).1

/-- C5: a run with an empty combined table writes no spreadsheet and prints
the diagnostic; a run with data writes exactly one sheet per stage label
present in the combined table, named by the label and holding exactly that
label's rows (the sheet holds the table itself, no index column). -/
theorem export_spec (base : List Entry) (oracle : String → List Nat) :
    ((main_run base oracle).combined = none →
      (main_run base oracle).sheets = [] ∧
      Msg.noDataCollected ∈ (main_run base oracle).msgs) ∧
    (∀ df, (main_run base oracle).combined = some df →
      df.rows ≠ [] ∧
      ((main_run base oracle).sheets.map Prod.fst).Nodup ∧
      (∀ s, s ∈ (main_run base oracle).sheets.map Prod.fst ↔
        ∃ r ∈ df.rows, getCell r "Stage" = some s) ∧
      (∀ sh ∈ (main_run base oracle).sheets,
        sh.snd.rows = df.rows.filter
          (fun r => decide (getCell r "Stage" = some sh.fst)))) := by
  constructor
  · intro hc
    have hnil : collect_all base oracle = [] := by
      by_contra hne
      rw [main_run_combined, if_neg hne] at hc
      exact Option.noConfusion hc
    refine ⟨?_, ?_⟩
    · rw [main_run_sheets, if_pos hnil]
    · rw [main_run_msgs_empty base oracle hnil]
      simp
  · intro df hc
    have hne : collect_all base oracle ≠ [] := by
      intro hnil
      rw [main_run_combined, if_pos hnil] at hc
      exact Option.noConfusion hc
    rw [main_run_combined, if_neg hne] at hc
    obtain rfl : concatDFs (collect_all base oracle) = df :=
      Option.some_inj.mp hc
    have hsheets : (main_run base oracle).sheets =
        (groupbyStage (concatDFs (collect_all base oracle))).map
          (fun g => (g.fst, DF.mk (concatDFs (collect_all base oracle)).cols
            g.snd)) := by
      rw [main_run_sheets, if_neg hne]
      rfl
    have hfst : ((main_run base oracle).sheets.map Prod.fst) =
        (groupbyStage (concatDFs (collect_all base oracle))).map Prod.fst := by
      rw [hsheets, List.map_map]
      rfl
    refine ⟨combined_rows_ne_nil base oracle hne, ?_, ?_, ?_⟩
    · rw [hfst]
      exact groupbyStage_key_nodup _
    · intro s
      rw [hfst]
      exact groupbyStage_mem_keys _ s
    · intro sh hsh
      rw [hsheets] at hsh
      obtain ⟨g, hg, rfl⟩ := List.mem_map.mp hsh
      exact groupbyStage_groups _ g hg

/-- Witness for C5: the sample run produces its one StageI sheet with the
sample row. -/
theorem export_spec_witness :
    sampleCombined.rows ≠ [] ∧
    ((main_run sampleBase sampleOracle).sheets.map Prod.fst).Nodup ∧
    (∀ s, s ∈ (main_run sampleBase sampleOracle).sheets.map Prod.fst ↔
      ∃ r ∈ sampleCombined.rows, getCell r "Stage" = some s) ∧
    (∀ sh ∈ (main_run sampleBase sampleOracle).sheets,
      sh.snd.rows = sampleCombined.rows.filter
        (fun r => decide (getCell r "Stage" = some sh.fst))) :=
  (export_spec sampleBase sampleOracle).2 sampleCombined (by decide)

/-! Characterisation of the directory walk. -/

theorem walkEntry_mem (e : Entry) (root p : String) :
    p ∈ (walkEntry e root).map Prod.fst ↔ IsMafPath root e p := by
  refine walkEntry.induct
    (fun e root => ∀ q, q ∈ (walkEntry e root).map Prod.fst ↔
      IsMafPath root e q)
    (fun cs root => ∀ q, q ∈ (walkChildren cs root).map Prod.fst ↔
      ∃ e2 ∈ cs.toList, IsMafPath root e2 q)
    ?_ ?_ ?_ ?_ e root p
  · intro name pc x q
    simp only [walkEntry, List.map_nil, List.not_mem_nil]
    constructor
    · intro h
      exact h.elim
    · intro h
      cases h
  · intro n cs root ih q
    simp only [walkEntry, List.map_append, List.mem_append]
    constructor
    · rintro (hml | hwc)
      · obtain ⟨x, hx, rfl⟩ := List.mem_map.mp hml
        obtain ⟨e2, he2, hfe⟩ := List.mem_filterMap.mp hx
        cases e2 with
        | file fn pc =>
          have hfe2 : (if endsWithMaf fn = true then
              some (pathJoin (pathJoin root n) fn, pc) else none) = some x := hfe
          by_cases hmaf : endsWithMaf fn = true
          · rw [if_pos hmaf] at hfe2
            obtain rfl := Option.some_inj.mp hfe2
            exact IsMafPath.here root n fn cs pc he2 hmaf
          · rw [if_neg hmaf] at hfe2
            exact Option.noConfusion hfe2
        | dir n2 cs2 => exact Option.noConfusion hfe
      · obtain ⟨e2, he2, hp⟩ := (ih q).mp hwc
        exact IsMafPath.deeper root n q cs e2 he2 hp
    · intro h
      cases h with
      | here _ _ fn _ pc hmem hmaf =>
        refine Or.inl (List.mem_map.mpr
          ⟨(pathJoin (pathJoin root n) fn, pc), ?_, rfl⟩)
        refine List.mem_filterMap.mpr ⟨Entry.file fn pc, hmem, ?_⟩
        show (if endsWithMaf fn = true then
          some (pathJoin (pathJoin root n) fn, pc) else none) =
          some (pathJoin (pathJoin root n) fn, pc)
        rw [if_pos hmaf]
      | deeper _ _ _ _ e2 hmem hp =>
        exact Or.inr ((ih q).mpr ⟨e2, hmem, hp⟩)
  · intro x q
    simp only [walkChildren, List.map_nil, List.not_mem_nil,
      EntryList.toList, false_iff]
    rintro ⟨e2, he2, hp⟩
    exact he2
  · intro e2 rest root ih1 ih2 q
    simp only [walkChildren, List.map_append, List.mem_append,
      EntryList.toList, List.mem_cons]
    constructor
    · rintro (h | h)
      · exact ⟨e2, Or.inl rfl, (ih1 q).mp h⟩
      · obtain ⟨e3, he3, hp⟩ := (ih2 q).mp h
        exact ⟨e3, Or.inr he3, hp⟩
    · rintro ⟨e3, (rfl | he3), hp⟩
      · exact Or.inl ((ih1 q).mpr hp)
      · exact Or.inr ((ih2 q).mpr ⟨e3, he3, hp⟩)

/-- C10: find_maf_files is total (a plain function on the resolved
directory), yields the empty list for a nonexistent path, and returns
exactly the paths, at any depth, of the files whose names end in .maf. -/
theorem find_maf_files_spec (root : String) (d : Option Entry) (p : String) :
    find_maf_files root none = [] ∧
    (p ∈ (find_maf_files root d).map Prod.fst ↔
      ∃ e, d = some e ∧ IsMafPath root e p) := by
  refine ⟨rfl, ?_⟩
  cases d with
  | none =>
    simp only [find_maf_files, List.map_nil, List.not_mem_nil, false_iff]
    rintro ⟨e, he, hp⟩
    exact Option.noConfusion he
  | some e =>
    simp only [find_maf_files]
    rw [walkEntry_mem e root p]
    constructor
    · intro h
      exact ⟨e, rfl, h⟩
    · rintro ⟨e2, he, hp⟩
      obtain rfl := Option.some_inj.mp he
      exact hp
